import Mathlib

/-!
Verification development for the voice-time tracker core
(`src/tracker.py` and its storage layer `src/db.py`).

Modelling conventions (shallow embedding):

* A timestamp ("instant") is an integer number of microseconds since some
  epoch, on the UTC timeline.  Python `datetime` objects carry microsecond
  resolution, so instants live in `ℤ` at microsecond granularity.
* A Python aware/naive `datetime` value is modelled by `PyDateTime`:
  a wall-clock reading (in microseconds) together with an optional UTC
  offset (`none` models a naive datetime, whose `tzinfo is None`).
  `astimezone(timezone.utc)` turns an aware value into the instant
  `wall - offset`.
* A timezone is modelled by the two conversions the code uses:
  the UTC offset as a function of the instant (for `astimezone(tz)`), and
  the instant of each local midnight (for
  `datetime.combine(day, time.min, tzinfo=tz).astimezone(timezone.utc)`).
  Three validity fields state facts that hold of real tzdata zones:
  the next local midnight after an instant lies strictly in its future,
  the local calendar day of the instant of local midnight of day `d` is `d`
  itself, and midnight instants are whole seconds (tzdata offsets are whole
  seconds).
* Local calendar days are keyed by their day number
  (`floor(localtime / 86400s)`); the Python code keys buckets by the ISO
  string of the date, and ISO date strings are in order-preserving
  bijection with day numbers.
* The SQLite store of `db.py` is modelled by `Store`: two association
  lists, `sessions` (`open_sessions`: user_id → started_at_utc) and
  `totals` (`daily_totals`: (day, user_id) → seconds).  The SQL primary
  keys make row keys unique; key-uniqueness appears as an explicit
  hypothesis (`Nodup`) where a proof needs it.  `ON CONFLICT DO UPDATE`
  upserts are modelled by `aupsert` / `aaddup`.  Every `db` operation is
  state-passing (`Store → Store × α`); a SQL `SELECT` leaves the store
  unchanged.
* The Python `while` loop of `split_interval_by_local_day` is modelled by
  fuel recursion; the fuel is the length of the interval in microseconds,
  which bounds the iteration count because every iteration advances the
  cursor by at least one microsecond.  `splitGoF_fuel_free` shows the
  result does not depend on the fuel once the fuel is at least the
  remaining gap, so the fuel is an artifact of totality, not of meaning.
-/

/-- Microseconds per second. -/
def usPerSec : ℤ := 1000000

/-- Microseconds per day. -/
def usPerDay : ℤ := 86400000000

/-- A timezone, as the two conversions `tracker.py` performs with it.
`offset t` is the UTC offset (in microseconds) in effect at instant `t`,
so `astimezone(tz)` shows wall clock `t + offset t`.  `midnightInstant d`
is the instant denoted by `datetime.combine(d, time.min, tzinfo=tz)
.astimezone(timezone.utc)` — local midnight opening local day `d`, under
Python's fold=0 disambiguation at DST transitions.  The three proof
fields record validity facts true of real tzdata zones (see header). -/
structure Timezone where
  offset : ℤ → ℤ
  midnightInstant : ℤ → ℤ
  midnight_after : ∀ t : ℤ, t < midnightInstant ((t + offset t).fdiv usPerDay + 1)
  midnight_day : ∀ d : ℤ, (midnightInstant d + offset (midnightInstant d)).fdiv usPerDay = d
  midnight_sec : ∀ d : ℤ, midnightInstant d % usPerSec = 0

/-- `cursor.astimezone(tz).date()`: the local calendar day number of an
instant. -/
def localDay (tz : Timezone) (t : ℤ) : ℤ :=
  (t + tz.offset t).fdiv usPerDay

/-- A fixed-offset timezone (offset a whole number of seconds). -/
def fixedTz (o : ℤ) (ho : o % usPerSec = 0) : Timezone where
  offset := fun _ => o
  midnightInstant := fun d => d * usPerDay - o
  midnight_after := by
    intro t
    show t < ((t + o).fdiv usPerDay + 1) * usPerDay - o
    have hD : (0 : ℤ) < usPerDay := by decide
    rw [Int.fdiv_eq_ediv _ (le_of_lt hD)]
    have h := Int.lt_ediv_add_one_mul_self (t + o) hD
    omega
  midnight_day := by
    intro d
    show (d * usPerDay - o + o).fdiv usPerDay = d
    have hD : (0 : ℤ) < usPerDay := by decide
    rw [Int.fdiv_eq_ediv _ (le_of_lt hD)]
    simp [Int.mul_ediv_cancel _ (ne_of_gt hD)]
  midnight_sec := by
    intro d
    show (d * usPerDay - o) % usPerSec = 0
    have : usPerDay = 86400 * usPerSec := by decide
    rw [this, Int.sub_emod, ← mul_assoc, Int.mul_emod_left, ho]
    decide

/-- The UTC timezone (`timezone.utc`). -/
def utcTz : Timezone := fixedTz 0 (by decide)

/-- A Python `datetime` value: a wall-clock reading in microseconds plus
an optional UTC offset.  `off = none` models a naive datetime
(`tzinfo is None`); for an aware one, `astimezone(timezone.utc)` denotes
the instant `wall - o`. -/
structure PyDateTime where
  wall : ℤ
  off : Option ℤ
deriving DecidableEq

/-- The absolute instant an aware `PyDateTime` denotes. -/
def PyDateTime.instant (d : PyDateTime) (o : ℤ) : ℤ := d.wall - o

/-- The `while cursor < end` loop of `split_interval_by_local_day`
(`tracker.py` lines 32–45), as fuel recursion.  One iteration: take the
cursor's local day, cap the chunk at the next local midnight (or `end`),
emit `(local_day, int(total_seconds(chunk)))` when positive, advance the
cursor to the cap.  The chunk is positive, so Python's `int()` truncation
toward zero is floor division `Int.fdiv`. -/
def splitGoF (tz : Timezone) (endT : ℤ) : ℕ → ℤ → List (ℤ × ℤ)
  | 0, _ => []
  | fuel + 1, cursor =>
    if cursor < endT then
      let day := localDay tz cursor
      let nextMidnightUtc := tz.midnightInstant (day + 1)
      let chunkEnd := min endT nextMidnightUtc
      let chunkSeconds := (chunkEnd - cursor).fdiv usPerSec
      let rest := splitGoF tz endT fuel chunkEnd
      if 0 < chunkSeconds then (day, chunkSeconds) :: rest else rest
    else []

/-- `split_interval_by_local_day` on already-normalized UTC instants
(`tracker.py` lines 26–47): the `end <= start` early return followed by
the chunking loop.  The fuel `(endT - startT).toNat` is an upper bound on
the loop's iteration count (see `splitGoF_fuel_free`). -/
def splitInstants (tz : Timezone) (startT endT : ℤ) : List (ℤ × ℤ) :=
  if endT ≤ startT then []
  else splitGoF tz endT (endT - startT).toNat startT

/-- `split_interval_by_local_day(start_utc, end_utc, tz)` on `PyDateTime`
inputs (`tracker.py` lines 15–47): raise `ValueError` when either bound
is naive, otherwise normalize both bounds to UTC instants and run the
chunking loop. -/
def split_interval_by_local_day (startDt endDt : PyDateTime) (tz : Timezone) :
    Except String (List (ℤ × ℤ)) :=
  match startDt.off, endDt.off with
  | some os, some oe =>
      Except.ok (splitInstants tz (startDt.instant os) (endDt.instant oe))
  | _, _ => Except.error ("start_utc and end_utc must be timezone-aware")

/-- Total seconds of a chunk list, `sum(seconds for _, seconds in ...)`. -/
def sumSecs (l : List (ℤ × ℤ)) : ℤ :=
  (l.map (fun p => p.2)).sum

/-- Seconds a chunk list attributes to local day `d`. -/
def daySeconds (l : List (ℤ × ℤ)) (d : ℤ) : ℤ :=
  ((l.filter (fun p => p.1 = d)).map (fun p => p.2)).sum

/-- User ids are opaque identifiers (`user_id TEXT` in `db.py`). -/
abbrev UserId := String

/-- First-match lookup in an association list (a `SELECT ... WHERE key = ?`
returning at most one row; the SQL primary key makes keys unique). -/
def alookup {α β : Type} [DecidableEq α] : List (α × β) → α → Option β
  | [], _ => none
  | p :: rest, k => if p.1 = k then some p.2 else alookup rest k

/-- `INSERT ... ON CONFLICT DO UPDATE SET v = excluded.v`: replace the
value when the key is present, else append a fresh row. -/
def aupsert {α β : Type} [DecidableEq α] (l : List (α × β)) (k : α) (v : β) :
    List (α × β) :=
  match alookup l k with
  | some _ => l.map (fun p => if p.1 = k then (k, v) else p)
  | none => l ++ [(k, v)]

/-- `INSERT ... ON CONFLICT DO UPDATE SET v = v + excluded.v`: add to the
value when the key is present, else append a fresh row. -/
def aaddup {α : Type} [DecidableEq α] (l : List (α × ℤ)) (k : α) (v : ℤ) :
    List (α × ℤ) :=
  match alookup l k with
  | some _ => l.map (fun p => if p.1 = k then (p.1, p.2 + v) else p)
  | none => l ++ [(k, v)]

/-- The persisted state of `db.py`: the `open_sessions` table
(user_id → started_at_utc instant) and the `daily_totals` table
((day_local, user_id) → seconds). -/
structure Store where
  sessions : List (UserId × ℤ)
  totals : List ((ℤ × UserId) × ℤ)
deriving DecidableEq

namespace DB

/-- `Database.get_open_session` (`db.py` lines 63–70): a SELECT, leaving
the store unchanged. -/
def get_open_session (u : UserId) (s : Store) : Store × Option ℤ :=
  (s, alookup s.sessions u)

/-- `Database.set_open_session` (`db.py` lines 50–61): upsert with
replace semantics. -/
def set_open_session (u : UserId) (t : ℤ) (s : Store) : Store × Unit :=
  ({ s with sessions := aupsert s.sessions u t }, ())

/-- `Database.delete_open_session` (`db.py` lines 72–74). -/
def delete_open_session (u : UserId) (s : Store) : Store × Unit :=
  ({ s with sessions := s.sessions.filter (fun p => ¬ p.1 = u) }, ())

/-- `Database.clear_open_sessions` (`db.py` lines 76–78). -/
def clear_open_sessions (s : Store) : Store × Unit :=
  ({ s with sessions := [] }, ())

/-- `Database.list_open_sessions` (`db.py` lines 80–87): a SELECT. -/
def list_open_sessions (s : Store) : Store × List (UserId × ℤ) :=
  (s, s.sessions)

/-- `Database.add_daily_seconds` (`db.py` lines 89–103): a zero or
negative increment returns without touching the table; otherwise upsert
with additive semantics. -/
def add_daily_seconds (d : ℤ) (u : UserId) (secs : ℤ) (s : Store) :
    Store × Unit :=
  if secs ≤ 0 then (s, ())
  else ({ s with totals := aaddup s.totals (d, u) secs }, ())

/-- `Database.get_daily_totals` (`db.py` lines 105–119): a SELECT of one
day's rows.  The SQL orders rows by seconds then user id; the only caller
modelled here folds the rows into a user-keyed mapping, which is
insensitive to row order because (day, user) is a primary key, so the
ordering is not modelled. -/
def get_daily_totals (d : ℤ) (s : Store) : Store × List ((ℤ × UserId) × ℤ) :=
  (s, s.totals.filter (fun p => p.1.1 = d))

end DB

/-- `tracker.start_session` (`tracker.py` lines 50–58): refuse a
duplicate start, else persist an OpenSession row.  Returns whether the
session was started.  The tracker functions receive explicit instants;
in the code a missing argument defaults to `utc_now()`. -/
def start_session (u : UserId) (t : ℤ) (s : Store) : Store × Bool :=
  let (s1, cur) := DB.get_open_session u s
  match cur with
  | some _ => (s1, false)
  | none => ((DB.set_open_session u t s1).1, true)

/-- `tracker.accumulate_interval` (`tracker.py` lines 74–80): split the
interval across local days and persist each chunk, returning the summed
seconds. -/
def accumulate_interval (u : UserId) (startT endT : ℤ) (tz : Timezone)
    (s : Store) : Store × ℤ :=
  (splitInstants tz startT endT).foldl
    (fun acc p => ((DB.add_daily_seconds p.1 u p.2 acc.1).1, acc.2 + p.2))
    (s, 0)

/-- `tracker.end_session` (`tracker.py` lines 61–71): a stop without an
open session is a no-op returning 0; otherwise accumulate
`[started_at, ended_at)`, delete the OpenSession row and return the
tracked seconds. -/
def end_session (u : UserId) (tz : Timezone) (t : ℤ) (s : Store) :
    Store × ℤ :=
  let (s1, cur) := DB.get_open_session u s
  match cur with
  | none => (s1, 0)
  | some started =>
    let (s2, tracked) := accumulate_interval u started t tz s1
    ((DB.delete_open_session u s2).1, tracked)

/-- One iteration of the `rollover_open_sessions` loop
(`tracker.py` lines 85–89), processing one snapshot row `p`: skip
sessions already starting at or after midnight, else accumulate
`[started_at, midnight)` and reset the session start to midnight. -/
def rolloverStep (m : ℤ) (tz : Timezone) (st : Store) (p : UserId × ℤ) :
    Store :=
  if m ≤ p.2 then st
  else (DB.set_open_session p.1 m (accumulate_interval p.1 p.2 m tz st).1).1

/-- `tracker.rollover_open_sessions` (`tracker.py` lines 83–89): fold the
rollover step over the snapshot returned by `list_open_sessions`. -/
def rollover_open_sessions (m : ℤ) (tz : Timezone) (s : Store) : Store :=
  let (s0, sess) := DB.list_open_sessions s
  sess.foldl (rolloverStep m tz) s0

/-- `tracker.reseed_sessions` (`tracker.py` lines 92–97): clear all open
sessions and recreate one per listed user, all starting at `t`. -/
def reseed_sessions (ids : List UserId) (t : ℤ) (s : Store) : Store :=
  ids.foldl (fun st u => (DB.set_open_session u t st).1)
    (DB.clear_open_sessions s).1

/-- Value of a user-keyed mapping with Python's `totals.get(u, 0)`
default. -/
def dictGetD (l : List (UserId × ℤ)) (u : UserId) : ℤ :=
  (alookup l u).getD 0

/-- `tracker.get_totals_for_day` (`tracker.py` lines 100–117): build the
`{user_id: seconds}` mapping from the day's persisted rows; when
`include_live` is set, split each open session's `[started_at, now)` and
add the chunks matching the requested day on top. -/
def get_totals_for_day (dayKey : ℤ) (tz : Timezone) (includeLive : Bool)
    (now : ℤ) (s : Store) : Store × List (UserId × ℤ) :=
  let (s1, rows) := DB.get_daily_totals dayKey s
  let totals := rows.foldl (fun acc r => aupsert acc r.1.2 r.2) []
  if !includeLive then (s1, totals)
  else
    let (s2, sess) := DB.list_open_sessions s1
    let totals2 := sess.foldl
      (fun acc p =>
        (splitInstants tz p.2 now).foldl
          (fun acc2 ch =>
            if ¬ ch.1 = dayKey then acc2
            else aupsert acc2 p.1 (dictGetD acc2 p.1 + ch.2))
          acc)
      totals
    (s2, totals2)


/-! ### Association-list lemmas -/

section AssocLemmas

variable {α β : Type} [DecidableEq α]

@[simp] lemma alookup_nil (k : α) : alookup ([] : List (α × β)) k = none := rfl

lemma alookup_cons (p : α × β) (l : List (α × β)) (k : α) :
    alookup (p :: l) k = if p.1 = k then some p.2 else alookup l k := rfl

lemma alookup_append (l1 l2 : List (α × β)) (k : α) :
    alookup (l1 ++ l2) k =
      match alookup l1 k with
      | some v => some v
      | none => alookup l2 k := by
  induction l1 with
  | nil => simp
  | cons p rest ih =>
    by_cases h : p.1 = k <;> simp [alookup_cons, h, ih]

lemma alookup_eq_none (l : List (α × β)) (k : α) :
    alookup l k = none ↔ ¬ k ∈ l.map Prod.fst := by
  induction l with
  | nil => simp
  | cons p rest ih =>
    by_cases h : p.1 = k
    · simp [alookup_cons, h]
    · have h' : ¬ k = p.1 := fun he => h he.symm
      simp [alookup_cons, h, h', ih]

lemma alookup_setmap (l : List (α × β)) (k : α) (v : β) (k' : α) :
    alookup (l.map (fun p => if p.1 = k then (k, v) else p)) k' =
      if k' = k then (alookup l k).map (fun _ => v) else alookup l k' := by
  induction l with
  | nil => by_cases h : k' = k <;> simp [h]
  | cons p rest ih =>
    by_cases hp : p.1 = k
    · by_cases hk : k' = k
      · subst hk; simp [alookup_cons, hp, if_pos rfl]
      · have hk2 : ¬ k = k' := fun he => hk he.symm
        have hp2 : ¬ p.1 = k' := by rw [hp]; exact hk2
        simp [alookup_cons, hp, hk, hk2, hp2, ih]
    · by_cases hk : k' = k
      · subst hk
        simp [alookup_cons, hp, ih]
      · by_cases hpk : p.1 = k' <;> simp [alookup_cons, hp, hk, hpk, ih]

lemma alookup_addmap (l : List (α × ℤ)) (k : α) (v : ℤ) (k' : α) :
    alookup (l.map (fun p => if p.1 = k then (p.1, p.2 + v) else p)) k' =
      if k' = k then (alookup l k).map (fun w => w + v) else alookup l k' := by
  induction l with
  | nil => by_cases h : k' = k <;> simp [h]
  | cons p rest ih =>
    by_cases hp : p.1 = k
    · by_cases hk : k' = k
      · subst hk; simp [alookup_cons, hp, if_pos rfl]
      · have hk2 : ¬ k = k' := fun he => hk he.symm
        have hp2 : ¬ p.1 = k' := by rw [hp]; exact hk2
        simp [alookup_cons, hp, hk, hk2, hp2, ih]
    · by_cases hk : k' = k
      · subst hk
        simp [alookup_cons, hp, ih]
      · by_cases hpk : p.1 = k' <;> simp [alookup_cons, hp, hk, hpk, ih]

lemma setmap_keys (l : List (α × β)) (k : α) (v : β) :
    (l.map (fun p => if p.1 = k then (k, v) else p)).map Prod.fst =
      l.map Prod.fst := by
  induction l with
  | nil => simp
  | cons p rest ih =>
    by_cases h : p.1 = k <;> simp [h, ih]

lemma addmap_keys (l : List (α × ℤ)) (k : α) (v : ℤ) :
    (l.map (fun p => if p.1 = k then (p.1, p.2 + v) else p)).map Prod.fst =
      l.map Prod.fst := by
  induction l with
  | nil => simp
  | cons p rest ih =>
    by_cases h : p.1 = k <;> simp [h, ih]

lemma alookup_aupsert_self (l : List (α × β)) (k : α) (v : β) :
    alookup (aupsert l k v) k = some v := by
  unfold aupsert
  rcases hl : alookup l k with _ | w
  · simp [alookup_append, hl, alookup_cons]
  · simp [alookup_setmap, hl]

lemma alookup_aupsert_ne (l : List (α × β)) (k k' : α) (v : β)
    (h : ¬ k' = k) : alookup (aupsert l k v) k' = alookup l k' := by
  unfold aupsert
  rcases hl : alookup l k with _ | w
  · rw [alookup_append]
    have h2 : ¬ k = k' := fun he => h he.symm
    rcases h3 : alookup l k' with _ | u <;> simp [alookup_cons, h2]
  · simp [alookup_setmap, h]

lemma alookup_aaddup_self (l : List (α × ℤ)) (k : α) (v : ℤ) :
    alookup (aaddup l k v) k = some ((alookup l k).getD 0 + v) := by
  unfold aaddup
  rcases hl : alookup l k with _ | w
  · simp [alookup_append, hl, alookup_cons]
  · simp [alookup_addmap, hl]

lemma alookup_aaddup_ne (l : List (α × ℤ)) (k k' : α) (v : ℤ)
    (h : ¬ k' = k) : alookup (aaddup l k v) k' = alookup l k' := by
  unfold aaddup
  rcases hl : alookup l k with _ | w
  · rw [alookup_append]
    have h2 : ¬ k = k' := fun he => h he.symm
    rcases h3 : alookup l k' with _ | u <;> simp [alookup_cons, h2]
  · simp [alookup_addmap, h]

lemma aupsert_keys_nodup (l : List (α × β)) (k : α) (v : β)
    (h : (l.map Prod.fst).Nodup) : ((aupsert l k v).map Prod.fst).Nodup := by
  unfold aupsert
  rcases hl : alookup l k with _ | w
  · have hk : ¬ k ∈ l.map Prod.fst := (alookup_eq_none l k).mp hl
    rw [List.map_append]
    rw [List.nodup_append]
    refine ⟨h, List.nodup_singleton k, ?_⟩
    intro a ha hb
    simp only [List.map_cons, List.map_nil, List.mem_singleton] at hb
    exact hk (hb ▸ ha)
  · rw [setmap_keys]; exact h

lemma aaddup_keys_nodup (l : List (α × ℤ)) (k : α) (v : ℤ)
    (h : (l.map Prod.fst).Nodup) : ((aaddup l k v).map Prod.fst).Nodup := by
  unfold aaddup
  rcases hl : alookup l k with _ | w
  · have hk : ¬ k ∈ l.map Prod.fst := (alookup_eq_none l k).mp hl
    rw [List.map_append]
    rw [List.nodup_append]
    refine ⟨h, List.nodup_singleton k, ?_⟩
    intro a ha hb
    simp only [List.map_cons, List.map_nil, List.mem_singleton] at hb
    exact hk (hb ▸ ha)
  · rw [addmap_keys]; exact h

lemma mem_aupsert {l : List (α × β)} {k : α} {v : β} {q : α × β}
    (h : q ∈ aupsert l k v) : q ∈ l ∨ q = (k, v) := by
  unfold aupsert at h
  rcases hl : alookup l k with _ | w <;> rw [hl] at h
  · rcases List.mem_append.mp h with h2 | h2
    · exact Or.inl h2
    · simp only [List.mem_singleton] at h2; exact Or.inr h2
  · rcases List.mem_map.mp h with ⟨p, hp, hq⟩
    by_cases h2 : p.1 = k
    · simp only [h2, if_pos rfl] at hq; exact Or.inr hq.symm
    · simp only [h2, if_false] at hq; exact Or.inl (hq ▸ hp)

lemma alookup_of_mem {l : List (α × β)} {q : α × β}
    (hnd : (l.map Prod.fst).Nodup) (h : q ∈ l) : alookup l q.1 = some q.2 := by
  induction l with
  | nil => simp at h
  | cons p rest ih =>
    rw [List.map_cons, List.nodup_cons] at hnd
    rcases List.mem_cons.mp h with h1 | h1
    · subst h1; simp [alookup_cons]
    · have hp : ¬ p.1 = q.1 := by
        intro he
        exact hnd.1 (he ▸ List.mem_map.mpr ⟨q, h1, rfl⟩)
      rw [alookup_cons, if_neg hp]
      exact ih hnd.2 h1

/-- With unique keys, the rows matching a looked-up key are exactly the
one row holding the looked-up value. -/
lemma filter_key_eq {l : List (α × β)} {k : α} {t : β}
    (hnd : (l.map Prod.fst).Nodup) (h : alookup l k = some t) :
    l.filter (fun p => p.1 = k) = [(k, t)] := by
  induction l with
  | nil => simp at h
  | cons p rest ih =>
    rw [List.map_cons, List.nodup_cons] at hnd
    rw [alookup_cons] at h
    by_cases hp : p.1 = k
    · have hrest : rest.filter (fun p => p.1 = k) = [] := by
        rw [List.filter_eq_nil_iff]
        intro q hq hqk
        simp only [decide_eq_true_eq] at hqk
        exact hnd.1 ((hp.trans hqk.symm) ▸ List.mem_map.mpr ⟨q, hq, rfl⟩)
      rw [if_pos hp] at h
      have hpt : p = (k, t) := by
        have h2 : p.2 = t := by injection h
        calc p = (p.1, p.2) := rfl
        _ = (k, t) := by rw [hp, h2]
      simp [List.filter_cons, hp, hrest, hpt]
    · simp only [hp, if_false] at h
      simp [List.filter_cons, hp, ih hnd.2 h]

end AssocLemmas

/-! ### Interval-splitter lemmas -/

lemma splitGoF_of_not_lt (tz : Timezone) (endT : ℤ) (f : ℕ) (c : ℤ)
    (h : ¬ c < endT) : splitGoF tz endT f c = [] := by
  cases f with
  | zero => rfl
  | succ g => simp [splitGoF, h]

lemma chunkEnd_gt (tz : Timezone) (endT c : ℤ) (h : c < endT) :
    c < min endT (tz.midnightInstant (localDay tz c + 1)) :=
  lt_min h (tz.midnight_after c)

/-- The loop result does not depend on the fuel, as long as the fuel is
at least the remaining interval length in microseconds: each iteration
advances the cursor by at least one microsecond. -/
lemma splitGoF_fuel_free (tz : Timezone) (endT : ℤ) :
    ∀ f g : ℕ, ∀ c : ℤ, (endT - c).toNat ≤ f → (endT - c).toNat ≤ g →
      splitGoF tz endT f c = splitGoF tz endT g c := by
  intro f
  induction f with
  | zero =>
    intro g c hf hg
    have : ¬ c < endT := by omega
    rw [splitGoF_of_not_lt tz endT 0 c this, splitGoF_of_not_lt tz endT g c this]
  | succ f ih =>
    intro g c hf hg
    by_cases h : c < endT
    · have hg1 : 1 ≤ g := by omega
      obtain ⟨g', rfl⟩ : ∃ g', g = g' + 1 := ⟨g - 1, by omega⟩
      rw [splitGoF, splitGoF]
      simp only [h, if_true]
      have hce := chunkEnd_gt tz endT c h
      have hle : min endT (tz.midnightInstant (localDay tz c + 1)) ≤ endT :=
        min_le_left _ _
      rw [ih g' (min endT (tz.midnightInstant (localDay tz c + 1)))
        (by omega) (by omega)]
    · rw [splitGoF_of_not_lt tz endT _ c h, splitGoF_of_not_lt tz endT g c h]

/-- Every chunk the loop emits carries strictly positive seconds
(`if chunk_seconds > 0` guards the append). -/
lemma splitGoF_pos (tz : Timezone) (endT : ℤ) :
    ∀ f : ℕ, ∀ c : ℤ, ∀ p ∈ splitGoF tz endT f c, 0 < p.2 := by
  intro f
  induction f with
  | zero => intro c p hp; simp [splitGoF] at hp
  | succ f ih =>
    intro c p hp
    rw [splitGoF] at hp
    by_cases h : c < endT
    · simp only [h, if_true] at hp
      by_cases hpos :
          0 < (min endT (tz.midnightInstant (localDay tz c + 1)) - c).fdiv usPerSec
      · rw [if_pos hpos] at hp
        rcases List.mem_cons.mp hp with h1 | h1
        · rw [h1]; exact hpos
        · exact ih _ p h1
      · rw [if_neg hpos] at hp
        exact ih _ p hp
    · simp [h] at hp

/-- Every chunk's seconds are positive (`splitInstants` form). -/
lemma splitInstants_pos (tz : Timezone) (s e : ℤ) :
    ∀ p ∈ splitInstants tz s e, 0 < p.2 := by
  intro p hp
  unfold splitInstants at hp
  by_cases h : e ≤ s
  · simp [h] at hp
  · rw [if_neg h] at hp
    exact splitGoF_pos tz e _ s p hp

/-- Day keys the loop emits are bounded below by the cursor's local day,
and are strictly increasing along the output. -/
lemma splitGoF_day_bound_chain (tz : Timezone) (endT : ℤ) :
    ∀ f : ℕ, ∀ c : ℤ,
      (∀ p ∈ splitGoF tz endT f c, localDay tz c ≤ p.1) ∧
        List.Chain' (fun a b : ℤ × ℤ => a.1 < b.1) (splitGoF tz endT f c) := by
  intro f
  induction f with
  | zero => intro c; simp [splitGoF]
  | succ f ih =>
    intro c
    by_cases h : c < endT
    · rw [splitGoF]
      simp only [h, if_true]
      by_cases hM : endT ≤ tz.midnightInstant (localDay tz c + 1)
      · -- the chunk is capped by `endT`: the recursion stops right after.
        have hmin : min endT (tz.midnightInstant (localDay tz c + 1)) = endT :=
          min_eq_left hM
        rw [hmin, splitGoF_of_not_lt tz endT f endT (lt_irrefl endT)]
        by_cases hpos : 0 < (endT - c).fdiv usPerSec
        · simp [hpos]
        · simp [hpos]
      · -- the chunk is capped by the next midnight; its local day is one
        -- greater than the cursor's (`midnight_day`).
        push_neg at hM
        have hmin : min endT (tz.midnightInstant (localDay tz c + 1)) =
            tz.midnightInstant (localDay tz c + 1) := min_eq_right (le_of_lt hM)
        rw [hmin]
        have hday : localDay tz (tz.midnightInstant (localDay tz c + 1)) =
            localDay tz c + 1 := tz.midnight_day (localDay tz c + 1)
        obtain ⟨ihb, ihc⟩ := ih (tz.midnightInstant (localDay tz c + 1))
        have hb : ∀ p ∈ splitGoF tz endT f (tz.midnightInstant (localDay tz c + 1)),
            localDay tz c ≤ p.1 := by
          intro p hp
          have := ihb p hp
          omega
        by_cases hpos :
            0 < (tz.midnightInstant (localDay tz c + 1) - c).fdiv usPerSec
        · rw [if_pos hpos]
          constructor
          · intro p hp
            rcases List.mem_cons.mp hp with h1 | h1
            · rw [h1]
            · exact hb p h1
          · rw [List.chain'_cons']
            refine ⟨?_, ihc⟩
            intro b hbmem
            have hbm : b ∈ splitGoF tz endT f (tz.midnightInstant (localDay tz c + 1)) :=
              List.mem_of_mem_head? hbmem
            have := ihb b hbm
            show localDay tz c < b.1
            omega
        · rw [if_neg hpos]
          exact ⟨hb, ihc⟩
    · rw [splitGoF_of_not_lt tz endT _ c h]
      simp

/-- When the cursor and the interval end are whole seconds, every chunk
boundary is a whole second, so no microseconds are lost to `int()`
truncation and the emitted seconds telescope exactly. -/
lemma splitGoF_sum (tz : Timezone) (endT : ℤ) (he : endT % usPerSec = 0) :
    ∀ f : ℕ, ∀ c : ℤ, c < endT → (endT - c).toNat ≤ f → c % usPerSec = 0 →
      sumSecs (splitGoF tz endT f c) = (endT - c).fdiv usPerSec := by
  have hs0 : (0 : ℤ) < usPerSec := by decide
  intro f
  induction f with
  | zero => intro c hc hf _; omega
  | succ f ih =>
    intro c hc hf hcm
    rw [splitGoF]
    simp only [hc, if_true]
    have hlt : c < min endT (tz.midnightInstant (localDay tz c + 1)) :=
      chunkEnd_gt tz endT c hc
    have hcem : min endT (tz.midnightInstant (localDay tz c + 1)) % usPerSec = 0 := by
      rcases le_total endT (tz.midnightInstant (localDay tz c + 1)) with hle | hle
      · rw [min_eq_left hle]; exact he
      · rw [min_eq_right hle]; exact tz.midnight_sec _
    have hdvd : usPerSec ∣ min endT (tz.midnightInstant (localDay tz c + 1)) - c := by
      apply Int.dvd_of_emod_eq_zero
      rw [Int.sub_emod, hcem, hcm]
      decide
    have hge : usPerSec ≤ min endT (tz.midnightInstant (localDay tz c + 1)) - c :=
      Int.le_of_dvd (by omega) hdvd
    have hpos : 0 < (min endT (tz.midnightInstant (localDay tz c + 1)) - c).fdiv usPerSec := by
      rw [Int.fdiv_eq_ediv _ (le_of_lt hs0)]
      have h1 := Int.ediv_le_ediv hs0 hge
      rw [Int.ediv_self (by decide)] at h1
      omega
    rw [if_pos hpos]
    by_cases hMe : endT ≤ tz.midnightInstant (localDay tz c + 1)
    · have hmin : min endT (tz.midnightInstant (localDay tz c + 1)) = endT :=
        min_eq_left hMe
      rw [hmin] at hpos ⊢
      rw [splitGoF_of_not_lt tz endT f endT (lt_irrefl endT)]
      simp [sumSecs]
    · push_neg at hMe
      have hmin : min endT (tz.midnightInstant (localDay tz c + 1)) =
          tz.midnightInstant (localDay tz c + 1) := min_eq_right (le_of_lt hMe)
      rw [hmin] at hlt hdvd hpos ⊢
      have hrest := ih (tz.midnightInstant (localDay tz c + 1)) hMe
        (by omega) (tz.midnight_sec _)
      have hsum : sumSecs ((localDay tz c,
          (tz.midnightInstant (localDay tz c + 1) - c).fdiv usPerSec) ::
            splitGoF tz endT f (tz.midnightInstant (localDay tz c + 1))) =
          (tz.midnightInstant (localDay tz c + 1) - c).fdiv usPerSec +
            sumSecs (splitGoF tz endT f (tz.midnightInstant (localDay tz c + 1))) := by
        simp [sumSecs]
      rw [hsum, hrest]
      rw [Int.fdiv_eq_ediv _ (le_of_lt hs0), Int.fdiv_eq_ediv _ (le_of_lt hs0),
        Int.fdiv_eq_ediv _ (le_of_lt hs0)]
      have hdecomp : endT - c =
          (tz.midnightInstant (localDay tz c + 1) - c) +
            (endT - tz.midnightInstant (localDay tz c + 1)) := by ring
      rw [hdecomp, Int.add_ediv_of_dvd_left hdvd]

/-- `splitInstants` form of `splitGoF_sum`. -/
lemma splitInstants_sum (tz : Timezone) (s e : ℤ) (h : s < e)
    (hs : s % usPerSec = 0) (he : e % usPerSec = 0) :
    sumSecs (splitInstants tz s e) = (e - s).fdiv usPerSec := by
  unfold splitInstants
  rw [if_neg (by omega)]
  exact splitGoF_sum tz e he _ s h (le_refl _) hs

/-- An interval that ends by the next local midnight after its start
produces a single chunk, keyed by the start's local day. -/
lemma splitInstants_single (tz : Timezone) (s e : ℤ) (h : s < e)
    (hM : e ≤ tz.midnightInstant (localDay tz s + 1))
    (hpos : 0 < (e - s).fdiv usPerSec) :
    splitInstants tz s e = [(localDay tz s, (e - s).fdiv usPerSec)] := by
  unfold splitInstants
  rw [if_neg (by omega)]
  obtain ⟨g, hg⟩ : ∃ g, (e - s).toNat = g + 1 := ⟨(e - s).toNat - 1, by omega⟩
  rw [hg, splitGoF]
  simp only [h, if_true]
  rw [min_eq_left hM, splitGoF_of_not_lt tz e g e (lt_irrefl e), if_pos hpos]

/-! ### Store lemmas -/

/-- The open session recorded for a user. -/
def lookupSession (s : Store) (u : UserId) : Option ℤ :=
  alookup s.sessions u

/-- The persisted DailyTotal row for a (day, user), when present. -/
def lookupTotal (s : Store) (d : ℤ) (u : UserId) : Option ℤ :=
  alookup s.totals (d, u)

/-- The persisted seconds for a (day, user), defaulting to 0 when no row
exists. -/
def totalFor (s : Store) (d : ℤ) (u : UserId) : ℤ :=
  (alookup s.totals (d, u)).getD 0

lemma adds_nonpos (d : ℤ) (u : UserId) (secs : ℤ) (s : Store)
    (h : secs ≤ 0) : (DB.add_daily_seconds d u secs s).1 = s := by
  simp [DB.add_daily_seconds, h]

lemma adds_sessions (d : ℤ) (u : UserId) (secs : ℤ) (s : Store) :
    ((DB.add_daily_seconds d u secs s).1).sessions = s.sessions := by
  unfold DB.add_daily_seconds
  by_cases h : secs ≤ 0 <;> simp [h]

lemma adds_totalFor (d : ℤ) (u : UserId) (secs : ℤ) (s : Store)
    (hpos : 0 < secs) (d' : ℤ) (u' : UserId) :
    totalFor ((DB.add_daily_seconds d u secs s).1) d' u' =
      totalFor s d' u' + (if d' = d ∧ u' = u then secs else 0) := by
  unfold DB.add_daily_seconds totalFor
  rw [if_neg (by omega)]
  by_cases hk : d' = d ∧ u' = u
  · obtain ⟨h1, h2⟩ := hk
    subst h1; subst h2
    simp [alookup_aaddup_self]
  · have hne : ¬ ((d', u') : ℤ × UserId) = (d, u) := by
      intro he
      exact hk ⟨congrArg Prod.fst he, congrArg Prod.snd he⟩
    simp [alookup_aaddup_ne _ _ _ _ hne, hk]

lemma adds_lookupTotal_mono (d : ℤ) (u : UserId) (secs : ℤ) (s : Store)
    (d' : ℤ) (u' : UserId) (v : ℤ)
    (h : lookupTotal s d' u' = some v) :
    ∃ v', lookupTotal ((DB.add_daily_seconds d u secs s).1) d' u' = some v' ∧
      v ≤ v' := by
  unfold DB.add_daily_seconds lookupTotal at *
  by_cases hn : secs ≤ 0
  · exact ⟨v, by simp [hn, h], le_refl v⟩
  · rw [if_neg hn]
    by_cases hk : ((d', u') : ℤ × UserId) = (d, u)
    · refine ⟨v + secs, ?_, by omega⟩
      rw [hk] at h ⊢
      simp [alookup_aaddup_self, h]
    · exact ⟨v, by simp [alookup_aaddup_ne _ _ _ _ hk, h], le_refl v⟩

lemma mem_aaddup {α : Type} [DecidableEq α] {l : List (α × ℤ)} {k : α}
    {v : ℤ} {q : α × ℤ} (h : q ∈ aaddup l k v) :
    q ∈ l ∨ (∃ p ∈ l, q = (p.1, p.2 + v)) ∨ q = (k, v) := by
  unfold aaddup at h
  rcases hl : alookup l k with _ | w <;> rw [hl] at h
  · rcases List.mem_append.mp h with h2 | h2
    · exact Or.inl h2
    · simp only [List.mem_singleton] at h2
      exact Or.inr (Or.inr h2)
  · rcases List.mem_map.mp h with ⟨p, hp, hq⟩
    by_cases h2 : p.1 = k
    · rw [if_pos h2] at hq
      exact Or.inr (Or.inl ⟨p, hp, hq.symm⟩)
    · rw [if_neg h2] at hq
      exact Or.inl (hq ▸ hp)

/-- Totals rows stay non-negative across an increment. -/
lemma adds_nonneg (d : ℤ) (u : UserId) (secs : ℤ) (s : Store)
    (h : ∀ q ∈ s.totals, 0 ≤ q.2) :
    ∀ q ∈ ((DB.add_daily_seconds d u secs s).1).totals, 0 ≤ q.2 := by
  unfold DB.add_daily_seconds
  by_cases hn : secs ≤ 0
  · simpa [hn] using h
  · rw [if_neg hn]
    intro q hq
    rcases mem_aaddup hq with h1 | h1 | h1
    · exact h q h1
    · obtain ⟨p, hp, hq2⟩ := h1
      have := h p hp
      rw [hq2]
      simp only
      omega
    · rw [h1]; simp only; omega

lemma accFold_sessions (u : UserId) (l : List (ℤ × ℤ)) :
    ∀ (s : Store) (t0 : ℤ),
      ((l.foldl (fun acc p => ((DB.add_daily_seconds p.1 u p.2 acc.1).1, acc.2 + p.2))
        (s, t0)).1).sessions = s.sessions := by
  induction l with
  | nil => intro s t0; rfl
  | cons p rest ih =>
    intro s t0
    rw [List.foldl_cons, ih]
    exact adds_sessions p.1 u p.2 s

lemma accFold_snd (u : UserId) (l : List (ℤ × ℤ)) :
    ∀ (s : Store) (t0 : ℤ),
      (l.foldl (fun acc p => ((DB.add_daily_seconds p.1 u p.2 acc.1).1, acc.2 + p.2))
        (s, t0)).2 = t0 + sumSecs l := by
  induction l with
  | nil => intro s t0; simp [sumSecs]
  | cons p rest ih =>
    intro s t0
    rw [List.foldl_cons, ih]
    simp [sumSecs]
    ring

lemma daySeconds_cons (p : ℤ × ℤ) (l : List (ℤ × ℤ)) (d : ℤ) :
    daySeconds (p :: l) d =
      (if p.1 = d then p.2 else 0) + daySeconds l d := by
  unfold daySeconds
  by_cases h : p.1 = d <;> simp [List.filter_cons, h]

lemma accFold_totalFor (u : UserId) (l : List (ℤ × ℤ))
    (hl : ∀ p ∈ l, 0 < p.2) :
    ∀ (s : Store) (t0 : ℤ) (d : ℤ) (u' : UserId),
      totalFor ((l.foldl (fun acc p => ((DB.add_daily_seconds p.1 u p.2 acc.1).1, acc.2 + p.2))
        (s, t0)).1) d u' =
        totalFor s d u' + (if u' = u then daySeconds l d else 0) := by
  induction l with
  | nil => intro s t0 d u'; simp [daySeconds]
  | cons p rest ih =>
    intro s t0 d u'
    rw [List.foldl_cons]
    rw [ih (fun q hq => hl q (List.mem_cons_of_mem p hq)) _ _ d u']
    rw [adds_totalFor p.1 u p.2 s (hl p (List.mem_cons_self p rest)) d u']
    rw [daySeconds_cons]
    by_cases hu : u' = u
    · by_cases hd : d = p.1
      · subst hd
        simp [hu]
        ring
      · have hd2 : ¬ p.1 = d := fun he => hd he.symm
        simp [hu, hd, hd2]
    · simp [hu]

lemma accFold_lookupTotal_mono (u : UserId) (l : List (ℤ × ℤ)) :
    ∀ (s : Store) (t0 : ℤ) (d : ℤ) (u' : UserId) (v : ℤ),
      lookupTotal s d u' = some v →
      ∃ v', lookupTotal ((l.foldl
          (fun acc p => ((DB.add_daily_seconds p.1 u p.2 acc.1).1, acc.2 + p.2))
        (s, t0)).1) d u' = some v' ∧ v ≤ v' := by
  induction l with
  | nil => intro s t0 d u' v h; exact ⟨v, h, le_refl v⟩
  | cons p rest ih =>
    intro s t0 d u' v h
    rw [List.foldl_cons]
    obtain ⟨v1, h1, h2⟩ := adds_lookupTotal_mono p.1 u p.2 s d u' v h
    obtain ⟨v2, h3, h4⟩ := ih _ _ d u' v1 h1
    exact ⟨v2, h3, le_trans h2 h4⟩

lemma accFold_nonneg (u : UserId) (l : List (ℤ × ℤ)) :
    ∀ (s : Store) (t0 : ℤ), (∀ q ∈ s.totals, 0 ≤ q.2) →
      ∀ q ∈ ((l.foldl
          (fun acc p => ((DB.add_daily_seconds p.1 u p.2 acc.1).1, acc.2 + p.2))
        (s, t0)).1).totals, 0 ≤ q.2 := by
  induction l with
  | nil => intro s t0 h; exact h
  | cons p rest ih =>
    intro s t0 h
    rw [List.foldl_cons]
    exact ih _ _ (adds_nonneg p.1 u p.2 s h)

lemma accumulate_sessions (u : UserId) (a b : ℤ) (tz : Timezone) (s : Store) :
    ((accumulate_interval u a b tz s).1).sessions = s.sessions := by
  unfold accumulate_interval
  exact accFold_sessions u _ s 0

lemma accumulate_snd (u : UserId) (a b : ℤ) (tz : Timezone) (s : Store) :
    (accumulate_interval u a b tz s).2 = sumSecs (splitInstants tz a b) := by
  unfold accumulate_interval
  rw [accFold_snd u _ s 0]
  omega

lemma accumulate_totalFor (u : UserId) (a b : ℤ) (tz : Timezone) (s : Store)
    (d : ℤ) (u' : UserId) :
    totalFor ((accumulate_interval u a b tz s).1) d u' =
      totalFor s d u' +
        (if u' = u then daySeconds (splitInstants tz a b) d else 0) := by
  unfold accumulate_interval
  exact accFold_totalFor u _ (splitInstants_pos tz a b) s 0 d u'

lemma set_open_totals (u : UserId) (t : ℤ) (s : Store) :
    ((DB.set_open_session u t s).1).totals = s.totals := rfl

lemma rolloverStep_skip (m : ℤ) (tz : Timezone) (st : Store) (p : UserId × ℤ)
    (h : m ≤ p.2) : rolloverStep m tz st p = st := by
  simp [rolloverStep, h]

lemma rolloverStep_sessions_lookup (m : ℤ) (tz : Timezone) (st : Store)
    (p : UserId × ℤ) (u : UserId) :
    alookup (rolloverStep m tz st p).sessions u =
      if u = p.1 ∧ p.2 < m then some m else alookup st.sessions u := by
  unfold rolloverStep
  by_cases h : m ≤ p.2
  · rw [if_pos h, if_neg (by omega)]
  · rw [if_neg h]
    show alookup (aupsert ((accumulate_interval p.1 p.2 m tz st).1).sessions p.1 m) u = _
    rw [accumulate_sessions]
    by_cases hu : u = p.1
    · subst hu
      rw [alookup_aupsert_self, if_pos ⟨rfl, by omega⟩]
    · rw [alookup_aupsert_ne _ _ _ _ hu, if_neg (by intro hc; exact hu hc.1)]

lemma rolloverStep_totalFor (m : ℤ) (tz : Timezone) (st : Store)
    (p : UserId × ℤ) (d : ℤ) (u : UserId) :
    totalFor (rolloverStep m tz st p) d u =
      totalFor st d u +
        (if u = p.1 ∧ p.2 < m
          then daySeconds (splitInstants tz p.2 m) d else 0) := by
  unfold rolloverStep
  by_cases h : m ≤ p.2
  · rw [if_pos h, if_neg (by omega)]
    omega
  · rw [if_neg h]
    have h1 : totalFor ((DB.set_open_session p.1 m (accumulate_interval p.1 p.2 m tz st).1).1) d u =
        totalFor ((accumulate_interval p.1 p.2 m tz st).1) d u := rfl
    rw [h1, accumulate_totalFor]
    by_cases hu : u = p.1
    · rw [if_pos hu, if_pos ⟨hu, by omega⟩]
    · rw [if_neg hu, if_neg (by intro hc; exact hu hc.1)]

lemma rolloverStep_keys_nodup (m : ℤ) (tz : Timezone) (st : Store)
    (p : UserId × ℤ) (h : (st.sessions.map Prod.fst).Nodup) :
    ((rolloverStep m tz st p).sessions.map Prod.fst).Nodup := by
  unfold rolloverStep
  by_cases hs : m ≤ p.2
  · rw [if_pos hs]; exact h
  · rw [if_neg hs]
    show ((aupsert ((accumulate_interval p.1 p.2 m tz st).1).sessions p.1 m).map Prod.fst).Nodup
    rw [accumulate_sessions]
    exact aupsert_keys_nodup _ _ _ h

lemma rolloverStep_mem (m : ℤ) (tz : Timezone) (st : Store) (p : UserId × ℤ)
    (q : UserId × ℤ) (h : q ∈ (rolloverStep m tz st p).sessions) :
    q ∈ st.sessions ∨ q = (p.1, m) := by
  unfold rolloverStep at h
  by_cases hs : m ≤ p.2
  · rw [if_pos hs] at h; exact Or.inl h
  · rw [if_neg hs] at h
    have h2 : q ∈ aupsert ((accumulate_interval p.1 p.2 m tz st).1).sessions p.1 m := h
    rw [accumulate_sessions] at h2
    exact mem_aupsert h2

lemma rolloverFold_sess (m : ℤ) (tz : Timezone) :
    ∀ (l : List (UserId × ℤ)), (l.map Prod.fst).Nodup →
      ∀ (st : Store) (u : UserId),
        alookup (l.foldl (rolloverStep m tz) st).sessions u =
          match alookup l u with
          | some t => if t < m then some m else alookup st.sessions u
          | none => alookup st.sessions u := by
  intro l
  induction l with
  | nil => intro _ st u; rfl
  | cons p rest ih =>
    intro hnd st u
    rw [List.map_cons, List.nodup_cons] at hnd
    rw [List.foldl_cons, ih hnd.2]
    by_cases hu : u = p.1
    · have hrest : alookup rest u = none :=
        (alookup_eq_none rest u).mpr (by rw [hu]; exact hnd.1)
      have hhead : alookup (p :: rest) u = some p.2 := by
        rw [alookup_cons, if_pos hu.symm]
      rw [hrest, hhead, rolloverStep_sessions_lookup]
      by_cases hm : p.2 < m <;> simp [hu, hm]
    · have hhead : alookup (p :: rest) u = alookup rest u := by
        rw [alookup_cons, if_neg (fun he => hu he.symm)]
      have hstep : alookup (rolloverStep m tz st p).sessions u =
          alookup st.sessions u := by
        rw [rolloverStep_sessions_lookup, if_neg (by intro hc; exact hu hc.1)]
      rw [hhead, hstep]

lemma rolloverFold_totalFor (m : ℤ) (tz : Timezone) :
    ∀ (l : List (UserId × ℤ)), (l.map Prod.fst).Nodup →
      ∀ (st : Store) (d : ℤ) (u : UserId),
        totalFor (l.foldl (rolloverStep m tz) st) d u =
          totalFor st d u +
            (match alookup l u with
             | some t => if t < m then daySeconds (splitInstants tz t m) d else 0
             | none => 0) := by
  intro l
  induction l with
  | nil => intro _ st d u; simp
  | cons p rest ih =>
    intro hnd st d u
    rw [List.map_cons, List.nodup_cons] at hnd
    rw [List.foldl_cons, ih hnd.2]
    by_cases hu : u = p.1
    · have hrest : alookup rest u = none :=
        (alookup_eq_none rest u).mpr (by rw [hu]; exact hnd.1)
      have hhead : alookup (p :: rest) u = some p.2 := by
        rw [alookup_cons, if_pos hu.symm]
      rw [hrest, hhead, rolloverStep_totalFor]
      by_cases hm : p.2 < m <;> simp [hu, hm]
    · have hhead : alookup (p :: rest) u = alookup rest u := by
        rw [alookup_cons, if_neg (fun he => hu he.symm)]
      have hstep : totalFor (rolloverStep m tz st p) d u = totalFor st d u := by
        rw [rolloverStep_totalFor, if_neg (by intro hc; exact hu hc.1)]
        omega
      rw [hhead, hstep]

lemma rolloverFold_nodup (m : ℤ) (tz : Timezone) :
    ∀ (l : List (UserId × ℤ)) (st : Store),
      (st.sessions.map Prod.fst).Nodup →
      (((l.foldl (rolloverStep m tz) st).sessions).map Prod.fst).Nodup := by
  intro l
  induction l with
  | nil => intro st h; exact h
  | cons p rest ih =>
    intro st h
    rw [List.foldl_cons]
    exact ih _ (rolloverStep_keys_nodup m tz st p h)

lemma rolloverFold_mem (m : ℤ) (tz : Timezone) :
    ∀ (l : List (UserId × ℤ)) (st : Store) (q : UserId × ℤ),
      q ∈ (l.foldl (rolloverStep m tz) st).sessions →
      q ∈ st.sessions ∨ q.2 = m := by
  intro l
  induction l with
  | nil => intro st q h; exact Or.inl h
  | cons p rest ih =>
    intro st q h
    rw [List.foldl_cons] at h
    rcases ih _ q h with h2 | h2
    · rcases rolloverStep_mem m tz st p q h2 with h3 | h3
      · exact Or.inl h3
      · right; rw [h3]
    · exact Or.inr h2

lemma rolloverFold_skip (m : ℤ) (tz : Timezone) :
    ∀ (l : List (UserId × ℤ)), (∀ p ∈ l, m ≤ p.2) →
      ∀ st : Store, l.foldl (rolloverStep m tz) st = st := by
  intro l
  induction l with
  | nil => intro _ st; rfl
  | cons p rest ih =>
    intro h st
    rw [List.foldl_cons, rolloverStep_skip m tz st p (h p (List.mem_cons_self p rest))]
    exact ih (fun q hq => h q (List.mem_cons_of_mem p hq)) st

lemma rollover_sess (m : ℤ) (tz : Timezone) (s : Store)
    (hnd : (s.sessions.map Prod.fst).Nodup) (u : UserId) :
    lookupSession (rollover_open_sessions m tz s) u =
      match lookupSession s u with
      | some t => if t < m then some m else some t
      | none => none := by
  unfold rollover_open_sessions DB.list_open_sessions lookupSession
  rw [rolloverFold_sess m tz s.sessions hnd s u]
  rcases h : alookup s.sessions u with _ | t
  · simp [h]
  · by_cases hm : t < m <;> simp [h, hm]

lemma rollover_totalFor (m : ℤ) (tz : Timezone) (s : Store)
    (hnd : (s.sessions.map Prod.fst).Nodup) (d : ℤ) (u : UserId) :
    totalFor (rollover_open_sessions m tz s) d u =
      totalFor s d u +
        (match lookupSession s u with
         | some t => if t < m then daySeconds (splitInstants tz t m) d else 0
         | none => 0) := by
  unfold rollover_open_sessions DB.list_open_sessions lookupSession
  exact rolloverFold_totalFor m tz s.sessions hnd s d u

lemma rollover_idem (m : ℤ) (tz : Timezone) (s : Store)
    (hnd : (s.sessions.map Prod.fst).Nodup) :
    rollover_open_sessions m tz (rollover_open_sessions m tz s) =
      rollover_open_sessions m tz s := by
  have hnd1 : (((rollover_open_sessions m tz s).sessions).map Prod.fst).Nodup := by
    unfold rollover_open_sessions DB.list_open_sessions
    exact rolloverFold_nodup m tz s.sessions s hnd
  have hge : ∀ p ∈ (rollover_open_sessions m tz s).sessions, m ≤ p.2 := by
    intro p hp
    have hlk : alookup (rollover_open_sessions m tz s).sessions p.1 = some p.2 :=
      alookup_of_mem hnd1 hp
    have hs := rollover_sess m tz s hnd p.1
    rw [lookupSession] at hs
    rw [hlk] at hs
    rcases h2 : lookupSession s p.1 with _ | t
    · rw [h2] at hs; simp at hs
    · rw [h2] at hs
      by_cases hm : t < m
      · simp [hm] at hs; omega
      · simp [hm] at hs; omega
  show (rollover_open_sessions m tz s).sessions.foldl (rolloverStep m tz)
      (rollover_open_sessions m tz s) = rollover_open_sessions m tz s
  exact rolloverFold_skip m tz _ hge _

lemma delete_totals (u : UserId) (s : Store) :
    ((DB.delete_open_session u s).1).totals = s.totals := rfl

lemma reseedFold_totals (t : ℤ) :
    ∀ (ids : List UserId) (st : Store),
      ((ids.foldl (fun st u => (DB.set_open_session u t st).1) st)).totals =
        st.totals := by
  intro ids
  induction ids with
  | nil => intro st; rfl
  | cons id rest ih =>
    intro st
    rw [List.foldl_cons, ih]
    exact set_open_totals id t st

lemma reseedFold_sess (t : ℤ) :
    ∀ (ids : List UserId) (st : Store) (u : UserId),
      alookup ((ids.foldl (fun st u => (DB.set_open_session u t st).1) st)).sessions u =
        if u ∈ ids then some t else alookup st.sessions u := by
  intro ids
  induction ids with
  | nil => intro st u; simp
  | cons id rest ih =>
    intro st u
    rw [List.foldl_cons, ih]
    by_cases hr : u ∈ rest
    · simp [hr]
    · rw [if_neg hr]
      by_cases hid : u = id
      · subst hid
        have : alookup ((DB.set_open_session u t st).1).sessions u = some t :=
          alookup_aupsert_self st.sessions u t
        rw [this, if_pos (List.mem_cons_self u rest)]
      · have : alookup ((DB.set_open_session id t st).1).sessions u =
            alookup st.sessions u :=
          alookup_aupsert_ne st.sessions id u t hid
        rw [this, if_neg (by simp [List.mem_cons, hid, hr])]

lemma reseedFold_nodup (t : ℤ) :
    ∀ (ids : List UserId) (st : Store),
      (st.sessions.map Prod.fst).Nodup →
      (((ids.foldl (fun st u => (DB.set_open_session u t st).1) st)).sessions.map
        Prod.fst).Nodup := by
  intro ids
  induction ids with
  | nil => intro st h; exact h
  | cons id rest ih =>
    intro st h
    rw [List.foldl_cons]
    exact ih _ (aupsert_keys_nodup st.sessions id t h)

/-! ### Totals monotonicity (never decrement, never delete, never negative) -/

/-- Every DailyTotal row of `s` survives into `s'` with at least its old
value: no row is deleted and no value decremented. -/
def TotalsAtLeast (s s' : Store) : Prop :=
  ∀ (d : ℤ) (u : UserId) (v : ℤ), lookupTotal s d u = some v →
    ∃ v', lookupTotal s' d u = some v' ∧ v ≤ v'

/-- All stored DailyTotal values are non-negative. -/
def TotalsNonneg (s : Store) : Prop :=
  ∀ q ∈ s.totals, 0 ≤ q.2

lemma totalsAtLeast_refl (s : Store) : TotalsAtLeast s s :=
  fun _ _ v h => ⟨v, h, le_refl v⟩

lemma totalsAtLeast_trans {s1 s2 s3 : Store} (h1 : TotalsAtLeast s1 s2)
    (h2 : TotalsAtLeast s2 s3) : TotalsAtLeast s1 s3 := by
  intro d u v h
  obtain ⟨v1, hv1, hle1⟩ := h1 d u v h
  obtain ⟨v2, hv2, hle2⟩ := h2 d u v1 hv1
  exact ⟨v2, hv2, le_trans hle1 hle2⟩

lemma totalsAtLeast_of_eq {s s' : Store} (h : s'.totals = s.totals) :
    TotalsAtLeast s s' := by
  intro d u v hv
  refine ⟨v, ?_, le_refl v⟩
  rw [lookupTotal] at hv ⊢
  rw [h]
  exact hv

lemma totalsNonneg_of_eq {s s' : Store} (h : s'.totals = s.totals)
    (hn : TotalsNonneg s) : TotalsNonneg s' := by
  intro q hq
  rw [h] at hq
  exact hn q hq

lemma accumulate_totalsAtLeast (u : UserId) (a b : ℤ) (tz : Timezone)
    (s : Store) : TotalsAtLeast s ((accumulate_interval u a b tz s).1) := by
  intro d u' v h
  unfold accumulate_interval
  exact accFold_lookupTotal_mono u _ s 0 d u' v h

lemma accumulate_totalsNonneg (u : UserId) (a b : ℤ) (tz : Timezone)
    (s : Store) (h : TotalsNonneg s) :
    TotalsNonneg ((accumulate_interval u a b tz s).1) := by
  unfold accumulate_interval
  exact accFold_nonneg u _ s 0 h

lemma start_totals (u : UserId) (t : ℤ) (s : Store) :
    ((start_session u t s).1).totals = s.totals := by
  unfold start_session DB.get_open_session
  rcases alookup s.sessions u with _ | w <;> rfl

lemma end_totalsAtLeast (u : UserId) (tz : Timezone) (t : ℤ) (s : Store) :
    TotalsAtLeast s ((end_session u tz t s).1) := by
  unfold end_session DB.get_open_session
  rcases alookup s.sessions u with _ | started
  · exact totalsAtLeast_refl s
  · show TotalsAtLeast s ((DB.delete_open_session u (accumulate_interval u started t tz s).1).1)
    refine totalsAtLeast_trans (accumulate_totalsAtLeast u started t tz s) ?_
    exact totalsAtLeast_of_eq (delete_totals u _)

lemma end_totalsNonneg (u : UserId) (tz : Timezone) (t : ℤ) (s : Store)
    (h : TotalsNonneg s) : TotalsNonneg ((end_session u tz t s).1) := by
  unfold end_session DB.get_open_session
  rcases alookup s.sessions u with _ | started
  · exact h
  · show TotalsNonneg ((DB.delete_open_session u (accumulate_interval u started t tz s).1).1)
    exact totalsNonneg_of_eq (delete_totals u _)
      (accumulate_totalsNonneg u started t tz s h)

lemma rolloverStep_totalsAtLeast (m : ℤ) (tz : Timezone) (st : Store)
    (p : UserId × ℤ) : TotalsAtLeast st (rolloverStep m tz st p) := by
  unfold rolloverStep
  by_cases h : m ≤ p.2
  · rw [if_pos h]; exact totalsAtLeast_refl st
  · rw [if_neg h]
    refine totalsAtLeast_trans (accumulate_totalsAtLeast p.1 p.2 m tz st) ?_
    exact totalsAtLeast_of_eq (set_open_totals p.1 m _)

lemma rolloverStep_totalsNonneg (m : ℤ) (tz : Timezone) (st : Store)
    (p : UserId × ℤ) (h : TotalsNonneg st) :
    TotalsNonneg (rolloverStep m tz st p) := by
  unfold rolloverStep
  by_cases hs : m ≤ p.2
  · rw [if_pos hs]; exact h
  · rw [if_neg hs]
    exact totalsNonneg_of_eq (set_open_totals p.1 m _)
      (accumulate_totalsNonneg p.1 p.2 m tz st h)

lemma rolloverFold_totalsAtLeast (m : ℤ) (tz : Timezone) :
    ∀ (l : List (UserId × ℤ)) (st : Store),
      TotalsAtLeast st (l.foldl (rolloverStep m tz) st) := by
  intro l
  induction l with
  | nil => intro st; exact totalsAtLeast_refl st
  | cons p rest ih =>
    intro st
    rw [List.foldl_cons]
    exact totalsAtLeast_trans (rolloverStep_totalsAtLeast m tz st p) (ih _)

lemma rolloverFold_totalsNonneg (m : ℤ) (tz : Timezone) :
    ∀ (l : List (UserId × ℤ)) (st : Store),
      TotalsNonneg st → TotalsNonneg (l.foldl (rolloverStep m tz) st) := by
  intro l
  induction l with
  | nil => intro st h; exact h
  | cons p rest ih =>
    intro st h
    rw [List.foldl_cons]
    exact ih _ (rolloverStep_totalsNonneg m tz st p h)

/-! ### Claim theorems -/

/-- C1, counterexample: as stated, the claim is false on the code.  With
microsecond-resolution bounds, `int(total_seconds())` truncates each
chunk separately: for the UTC interval from 0.5s before midnight to 0.7s
after it, both sub-second chunks truncate to 0 and are dropped, so the
split sums to 0 while `floor((end - start).total_seconds())` is 1 —
one second of the interval is lost. -/
theorem c1_counterexample :
    (86399500000 : ℤ) < 86400700000 ∧
      ¬ sumSecs (splitInstants utcTz 86399500000 86400700000) =
          ((86400700000 : ℤ) - 86399500000).fdiv usPerSec := by
  decide

/-- C1 (amended): for bounds that are whole numbers of seconds (as in
every chunk boundary the loop itself creates), no time is lost or
double-counted: for `start < end` the emitted seconds sum to exactly
`floor((end - start).total_seconds())`. -/
theorem c1_split_sum_exact (tz : Timezone) (s e : ℤ) (h : s < e)
    (hs : s % usPerSec = 0) (he : e % usPerSec = 0) :
    sumSecs (splitInstants tz s e) = (e - s).fdiv usPerSec :=
  splitInstants_sum tz s e h hs he

theorem c1_split_sum_exact_witness :
    (86300000000 : ℤ) < 86500000000 ∧
      (86300000000 : ℤ) % usPerSec = 0 ∧
      (86500000000 : ℤ) % usPerSec = 0 ∧
      sumSecs (splitInstants utcTz 86300000000 86500000000) =
        ((86500000000 : ℤ) - 86300000000).fdiv usPerSec :=
  ⟨by decide, by decide, by decide,
    c1_split_sum_exact utcTz 86300000000 86500000000 (by decide) (by decide)
      (by decide)⟩

/-- C3: for `start < end` the split emits strictly increasing local day
keys (hence each key at most once) and strictly positive seconds; this
holds for every valid timezone, DST transitions included, because chunk
lengths are absolute-instant differences. -/
theorem c3_split_keys_ordered_pos (tz : Timezone) (s e : ℤ) (h : s < e) :
    List.Chain' (fun a b : ℤ × ℤ => a.1 < b.1) (splitInstants tz s e) ∧
      (∀ p ∈ splitInstants tz s e, 0 < p.2) ∧
      ((splitInstants tz s e).map Prod.fst).Nodup := by
  have hchain : List.Chain' (fun a b : ℤ × ℤ => a.1 < b.1) (splitInstants tz s e) := by
    unfold splitInstants
    rw [if_neg (by omega)]
    exact (splitGoF_day_bound_chain tz e _ s).2
  refine ⟨hchain, splitInstants_pos tz s e, ?_⟩
  haveI : IsTrans (ℤ × ℤ) (fun a b : ℤ × ℤ => a.1 < b.1) :=
    ⟨fun _ _ _ h1 h2 => lt_trans h1 h2⟩
  have hpw : (splitInstants tz s e).Pairwise (fun a b : ℤ × ℤ => a.1 < b.1) :=
    List.chain'_iff_pairwise.mp hchain
  have hpw2 : ((splitInstants tz s e).map Prod.fst).Pairwise (· < ·) :=
    List.Pairwise.map Prod.fst (fun _ _ hab => hab) hpw
  exact hpw2.imp (fun hab => ne_of_lt hab)

theorem c3_split_keys_ordered_pos_witness :
    (86399000000 : ℤ) < 86401000000 ∧
      List.Chain' (fun a b : ℤ × ℤ => a.1 < b.1)
        (splitInstants utcTz 86399000000 86401000000) ∧
      (∀ p ∈ splitInstants utcTz 86399000000 86401000000, 0 < p.2) ∧
      ((splitInstants utcTz 86399000000 86401000000).map Prod.fst).Nodup :=
  ⟨by decide, c3_split_keys_ordered_pos utcTz 86399000000 86401000000 (by decide)⟩

/-- C7: the splitter fails (raises `ValueError`) exactly when a bound is
naive, and for aware bounds with `end ≤ start` it returns the empty
list, not an error. -/
theorem c7_split_error_iff (a b : PyDateTime) (tz : Timezone) :
    ((split_interval_by_local_day a b tz).toOption = none ↔
      (a.off = none ∨ b.off = none)) ∧
      (∀ oa ob : ℤ, a.off = some oa → b.off = some ob →
        b.instant ob ≤ a.instant oa →
        split_interval_by_local_day a b tz = Except.ok []) := by
  constructor
  · rcases ha : a.off with _ | oa <;> rcases hb : b.off with _ | ob <;>
      simp [split_interval_by_local_day, ha, hb, Except.toOption]
  · intro oa ob ha hb hle
    simp [split_interval_by_local_day, ha, hb, splitInstants, hle]

theorem c7_split_error_iff_witness :
    ((split_interval_by_local_day ⟨100, none⟩ ⟨200, some 0⟩ utcTz).toOption =
        none) ∧
      split_interval_by_local_day ⟨100, some 0⟩ ⟨50, some 0⟩ utcTz =
        Except.ok [] :=
  ⟨(c7_split_error_iff ⟨100, none⟩ ⟨200, some 0⟩ utcTz).1.mpr (Or.inl rfl),
    (c7_split_error_iff ⟨100, some 0⟩ ⟨50, some 0⟩ utcTz).2 0 0 rfl rfl
      (by decide)⟩

/-- C10: the splitter depends only on the absolute instants its bounds
denote, not on the wall-clock/offset pair they are expressed in: the
bounds are normalized (`astimezone(timezone.utc)`) before any
bucketing. -/
theorem c10_split_instant_invariant (s1 e1 s2 e2 : PyDateTime)
    (tz : Timezone) (o1 o2 o3 o4 : ℤ)
    (h1 : s1.off = some o1) (h2 : e1.off = some o2)
    (h3 : s2.off = some o3) (h4 : e2.off = some o4)
    (hs : s1.instant o1 = s2.instant o3)
    (he : e1.instant o2 = e2.instant o4) :
    split_interval_by_local_day s1 e1 tz =
      split_interval_by_local_day s2 e2 tz := by
  simp only [split_interval_by_local_day, h1, h2, h3, h4, hs, he]

theorem c10_split_instant_invariant_witness :
    split_interval_by_local_day ⟨3600000000, some 3600000000⟩
        ⟨93600000000, some 3600000000⟩ utcTz =
      split_interval_by_local_day ⟨0, some 0⟩ ⟨90000000000, some 0⟩ utcTz :=
  c10_split_instant_invariant ⟨3600000000, some 3600000000⟩
    ⟨93600000000, some 3600000000⟩ ⟨0, some 0⟩ ⟨90000000000, some 0⟩ utcTz
    3600000000 3600000000 0 0 rfl rfl rfl rfl (by decide) (by decide)

/-- C2: rollover is idempotent for a fixed midnight: a second call with
the same midnight leaves all DailyTotal values identical; every open
session starting before midnight has `[started_at, midnight)` credited
to its user's day buckets and its start reset to exactly the midnight
instant (it stays open); sessions starting at or after midnight keep
their start and their user's totals untouched. -/
theorem c2_rollover_idempotent (m : ℤ) (tz : Timezone) (s : Store)
    (hnd : (s.sessions.map Prod.fst).Nodup) :
    (rollover_open_sessions m tz (rollover_open_sessions m tz s)).totals =
        (rollover_open_sessions m tz s).totals ∧
      (∀ (u : UserId) (t : ℤ), lookupSession s u = some t → t < m →
        lookupSession (rollover_open_sessions m tz s) u = some m ∧
          ∀ d : ℤ, totalFor (rollover_open_sessions m tz s) d u =
            totalFor s d u + daySeconds (splitInstants tz t m) d) ∧
      (∀ (u : UserId) (t : ℤ), lookupSession s u = some t → m ≤ t →
        lookupSession (rollover_open_sessions m tz s) u = some t ∧
          ∀ d : ℤ, totalFor (rollover_open_sessions m tz s) d u =
            totalFor s d u) := by
  refine ⟨by rw [rollover_idem m tz s hnd], ?_, ?_⟩
  · intro u t h hm
    constructor
    · rw [rollover_sess m tz s hnd u, h]
      simp [hm]
    · intro d
      rw [rollover_totalFor m tz s hnd d u, h]
      simp [hm]
  · intro u t h hm
    have hm2 : ¬ t < m := by omega
    constructor
    · rw [rollover_sess m tz s hnd u, h]
      simp [hm2]
    · intro d
      rw [rollover_totalFor m tz s hnd d u, h]
      simp [hm2]

theorem c2_rollover_idempotent_witness :
    lookupSession
        (rollover_open_sessions 86400000000 utcTz
          ⟨[("a", 5000000), ("b", 90000000000)], []⟩) "a" =
      some 86400000000 ∧
    lookupSession
        (rollover_open_sessions 86400000000 utcTz
          ⟨[("a", 5000000), ("b", 90000000000)], []⟩) "b" =
      some 90000000000 :=
  ⟨((c2_rollover_idempotent 86400000000 utcTz
      ⟨[("a", 5000000), ("b", 90000000000)], []⟩ (by decide)).2.1
        "a" 5000000 (by decide) (by decide)).1,
    ((c2_rollover_idempotent 86400000000 utcTz
      ⟨[("a", 5000000), ("b", 90000000000)], []⟩ (by decide)).2.2
        "b" 90000000000 (by decide) (by decide)).1⟩

/-- C4: `get_totals_for_day` never mutates persisted state (it issues
only SELECTs), a repeated call with the same arguments returns the same
result, and in the concrete scenario — persisted 120s for the day, one
open session for that user started 300s before `now` on the same day —
the live total is 420s. -/
theorem c4_get_totals_read_only :
    (∀ (dayKey : ℤ) (tz : Timezone) (b : Bool) (now : ℤ) (s : Store),
        (get_totals_for_day dayKey tz b now s).1 = s) ∧
      (∀ (dayKey : ℤ) (tz : Timezone) (b : Bool) (now : ℤ) (s : Store),
        get_totals_for_day dayKey tz b now
            ((get_totals_for_day dayKey tz b now s).1) =
          get_totals_for_day dayKey tz b now s) ∧
      (get_totals_for_day 0 utcTz true 43200000000
          ⟨[("200", 42900000000)], [((0, "200"), 120)]⟩).2 = [("200", 420)] := by
  refine ⟨?_, ?_, by decide⟩
  · intro dayKey tz b now s
    cases b <;> rfl
  · intro dayKey tz b now s
    have h : (get_totals_for_day dayKey tz b now s).1 = s := by cases b <;> rfl
    rw [h]

/-- C5: from a store with no session for `u` and no persisted totals,
`start_session(u, t0)` then `end_session(u, t1)` with `t1 - t0 = 90`
seconds where `t1` does not pass the next local midnight after `t0`
(both instants in the same local day) yields 90 tracked seconds from
`end_session` and `{u: 90}` from `get_totals_for_day` for that day
without live time. -/
theorem c5_round_trip (tz : Timezone) (u : UserId) (t0 : ℤ) (s : Store)
    (hsess : lookupSession s u = none) (htot : s.totals = [])
    (hM : t0 + 90 * usPerSec ≤ tz.midnightInstant (localDay tz t0 + 1)) :
    (start_session u t0 s).2 = true ∧
      (end_session u tz (t0 + 90 * usPerSec) ((start_session u t0 s).1)).2 =
        90 ∧
      (get_totals_for_day (localDay tz t0) tz false 0
          ((end_session u tz (t0 + 90 * usPerSec)
            ((start_session u t0 s).1)).1)).2 = [(u, 90)] := by
  have husec : usPerSec = 1000000 := rfl
  have h0 : alookup s.sessions u = none := hsess
  have hstart : start_session u t0 s = ((DB.set_open_session u t0 s).1, true) := by
    simp [start_session, DB.get_open_session, h0]
  have hs1sess : alookup ((DB.set_open_session u t0 s).1).sessions u = some t0 :=
    alookup_aupsert_self s.sessions u t0
  have hs1tot : ((DB.set_open_session u t0 s).1).totals = [] := by
    rw [set_open_totals]; exact htot
  have hsub : t0 + 90 * usPerSec - t0 = 90 * usPerSec := by ring
  have h90 : (t0 + 90 * usPerSec - t0).fdiv usPerSec = 90 := by
    rw [hsub, Int.fdiv_eq_ediv _ (by decide)]
    exact Int.mul_ediv_cancel 90 (by decide)
  have hlt : t0 < t0 + 90 * usPerSec := by omega
  have hsplit : splitInstants tz t0 (t0 + 90 * usPerSec) =
      [(localDay tz t0, 90)] := by
    have hs := splitInstants_single tz t0 (t0 + 90 * usPerSec) hlt hM
      (by rw [h90]; decide)
    rw [h90] at hs
    exact hs
  have hend1 : end_session u tz (t0 + 90 * usPerSec) ((DB.set_open_session u t0 s).1) =
      ((DB.delete_open_session u
          (accumulate_interval u t0 (t0 + 90 * usPerSec) tz
            ((DB.set_open_session u t0 s).1)).1).1,
        (accumulate_interval u t0 (t0 + 90 * usPerSec) tz
          ((DB.set_open_session u t0 s).1)).2) := by
    simp [end_session, DB.get_open_session, hs1sess]
  have htracked : (accumulate_interval u t0 (t0 + 90 * usPerSec) tz
      ((DB.set_open_session u t0 s).1)).2 = 90 := by
    rw [accumulate_snd, hsplit]
    simp [sumSecs]
  have hacc_tot : ((accumulate_interval u t0 (t0 + 90 * usPerSec) tz
      ((DB.set_open_session u t0 s).1)).1).totals =
      [((localDay tz t0, u), 90)] := by
    unfold accumulate_interval
    rw [hsplit]
    simp [DB.add_daily_seconds, hs1tot, aaddup]
  have hend_tot : ((end_session u tz (t0 + 90 * usPerSec)
      ((DB.set_open_session u t0 s).1)).1).totals =
      [((localDay tz t0, u), 90)] := by
    rw [hend1]
    rw [delete_totals]
    exact hacc_tot
  refine ⟨by rw [hstart], ?_, ?_⟩
  · rw [hstart]
    show (end_session u tz (t0 + 90 * usPerSec) ((DB.set_open_session u t0 s).1)).2 = 90
    rw [hend1]
    exact htracked
  · rw [hstart]
    show (get_totals_for_day (localDay tz t0) tz false 0
        ((end_session u tz (t0 + 90 * usPerSec)
          ((DB.set_open_session u t0 s).1)).1)).2 = [(u, 90)]
    unfold get_totals_for_day DB.get_daily_totals
    rw [hend_tot]
    simp [List.filter, aupsert, alookup]

theorem c5_round_trip_witness :
    (start_session "100" 36000000000 ⟨[], []⟩).2 = true ∧
      (end_session "100" utcTz (36000000000 + 90 * usPerSec)
        ((start_session "100" 36000000000 ⟨[], []⟩).1)).2 = 90 ∧
      (get_totals_for_day (localDay utcTz 36000000000) utcTz false 0
          ((end_session "100" utcTz (36000000000 + 90 * usPerSec)
            ((start_session "100" 36000000000 ⟨[], []⟩).1)).1)).2 =
        [("100", 90)] :=
  c5_round_trip utcTz "100" 36000000000 ⟨[], []⟩ (by decide) rfl (by decide)

/-- C6: a duplicate start for a user with an open session returns
"not started" and leaves the store unchanged, the user still holding
exactly one OpenSession row with the original start; a stop for a user
with no open session returns 0 and leaves the store (in particular all
DailyTotal rows) unchanged. -/
theorem c6_duplicate_events_noop :
    (∀ (u : UserId) (t t' : ℤ) (s : Store),
        (s.sessions.map Prod.fst).Nodup → lookupSession s u = some t →
        start_session u t' s = (s, false) ∧
          s.sessions.filter (fun p => p.1 = u) = [(u, t)]) ∧
      (∀ (u : UserId) (tz : Timezone) (t : ℤ) (s : Store),
        lookupSession s u = none → end_session u tz t s = (s, 0)) := by
  constructor
  · intro u t t' s hnd h
    have h0 : alookup s.sessions u = some t := h
    exact ⟨by simp [start_session, DB.get_open_session, h0],
      filter_key_eq hnd h0⟩
  · intro u tz t s h
    have h0 : alookup s.sessions u = none := h
    simp [end_session, DB.get_open_session, h0]

theorem c6_duplicate_events_noop_witness :
    start_session "a" 7 ⟨[("a", 3)], []⟩ = (⟨[("a", 3)], []⟩, false) ∧
      end_session "b" utcTz 9 ⟨[("a", 3)], []⟩ = (⟨[("a", 3)], []⟩, 0) :=
  ⟨(c6_duplicate_events_noop.1 "a" 3 7 ⟨[("a", 3)], []⟩ (by decide)
      (by decide)).1,
    c6_duplicate_events_noop.2 "b" utcTz 9 ⟨[("a", 3)], []⟩ (by decide)⟩

/-- C8: after `reseed_sessions(user_ids, t)` the open sessions are
exactly one row per distinct listed id, all started at `t`; prior
sessions are gone and DailyTotal rows are untouched. -/
theorem c8_reseed_resets_sessions (ids : List UserId) (t : ℤ) (s : Store) :
    (reseed_sessions ids t s).totals = s.totals ∧
      (((reseed_sessions ids t s).sessions).map Prod.fst).Nodup ∧
      ∀ u : UserId, lookupSession (reseed_sessions ids t s) u =
        if u ∈ ids then some t else none := by
  refine ⟨?_, ?_, ?_⟩
  · unfold reseed_sessions
    rw [reseedFold_totals]
    rfl
  · unfold reseed_sessions
    apply reseedFold_nodup
    show (((DB.clear_open_sessions s).1).sessions.map Prod.fst).Nodup
    simp [DB.clear_open_sessions]
  · intro u
    show alookup (reseed_sessions ids t s).sessions u = _
    unfold reseed_sessions
    rw [reseedFold_sess]
    by_cases h : u ∈ ids <;> simp [h, DB.clear_open_sessions]

/-- C9: a zero or negative increment request is a no-op on the store,
and none of the core operations ever decrements or deletes a DailyTotal
row (`TotalsAtLeast`) or introduces a negative stored value
(`TotalsNonneg` is preserved). -/
theorem c9_totals_never_shrink :
    (∀ (d : ℤ) (u : UserId) (secs : ℤ) (s : Store), secs ≤ 0 →
        (DB.add_daily_seconds d u secs s).1 = s) ∧
      (∀ (u : UserId) (t : ℤ) (s : Store),
        TotalsAtLeast s ((start_session u t s).1) ∧
          (TotalsNonneg s → TotalsNonneg ((start_session u t s).1))) ∧
      (∀ (u : UserId) (tz : Timezone) (t : ℤ) (s : Store),
        TotalsAtLeast s ((end_session u tz t s).1) ∧
          (TotalsNonneg s → TotalsNonneg ((end_session u tz t s).1))) ∧
      (∀ (u : UserId) (a b : ℤ) (tz : Timezone) (s : Store),
        TotalsAtLeast s ((accumulate_interval u a b tz s).1) ∧
          (TotalsNonneg s → TotalsNonneg ((accumulate_interval u a b tz s).1))) ∧
      (∀ (m : ℤ) (tz : Timezone) (s : Store),
        TotalsAtLeast s (rollover_open_sessions m tz s) ∧
          (TotalsNonneg s → TotalsNonneg (rollover_open_sessions m tz s))) ∧
      (∀ (ids : List UserId) (t : ℤ) (s : Store),
        TotalsAtLeast s (reseed_sessions ids t s) ∧
          (TotalsNonneg s → TotalsNonneg (reseed_sessions ids t s))) := by
  refine ⟨?_, ?_, ?_, ?_, ?_, ?_⟩
  · intro d u secs s h
    exact adds_nonpos d u secs s h
  · intro u t s
    exact ⟨totalsAtLeast_of_eq (start_totals u t s),
      totalsNonneg_of_eq (start_totals u t s)⟩
  · intro u tz t s
    exact ⟨end_totalsAtLeast u tz t s, end_totalsNonneg u tz t s⟩
  · intro u a b tz s
    exact ⟨accumulate_totalsAtLeast u a b tz s,
      accumulate_totalsNonneg u a b tz s⟩
  · intro m tz s
    constructor
    · show TotalsAtLeast s (s.sessions.foldl (rolloverStep m tz) s)
      exact rolloverFold_totalsAtLeast m tz s.sessions s
    · intro hn
      show TotalsNonneg (s.sessions.foldl (rolloverStep m tz) s)
      exact rolloverFold_totalsNonneg m tz s.sessions s hn
  · intro ids t s
    have he : (reseed_sessions ids t s).totals = s.totals := by
      unfold reseed_sessions
      rw [reseedFold_totals]
      rfl
    exact ⟨totalsAtLeast_of_eq he, totalsNonneg_of_eq he⟩

theorem c9_totals_never_shrink_witness :
    (DB.add_daily_seconds 0 "a" (-5) ⟨[], [((0, "a"), 7)]⟩).1 =
        ⟨[], [((0, "a"), 7)]⟩ ∧
      TotalsAtLeast ⟨[], [((0, "a"), 7)]⟩
        ((start_session "b" 3 ⟨[], [((0, "a"), 7)]⟩).1) :=
  ⟨c9_totals_never_shrink.1 0 "a" (-5) ⟨[], [((0, "a"), 7)]⟩ (by decide),
    (c9_totals_never_shrink.2.1 "b" 3 ⟨[], [((0, "a"), 7)]⟩).1⟩
